import Mathlib

/-!
# updater: merge of document versions and the transactional wrapper

A shallow embedding of

* `internal/service/document/service.go`  (Service.UpsertDoc: read, merge, write back),
* `internal/repository/document/repo.go`  (Repo.Tx, Repo.UpsertDoc, Repo.GetByURL),
* `internal/delivery/kafka/handler.go`    (Handler.Process).

Conventions of the embedding.

* `uint64` fields are natural numbers; the code only compares them, so no wrap-around occurs.
* A Go pointer that may be nil is an `Option`.
* A Go call either returns or panics (`Run`); a nil dereference and a method call on a nil
  interface value are panics.
* Records read from the store are values: the object `d` handed out by GetByURL is decoded
  from a row, shares no memory with the incoming object `doc`, and its `FirstFetchTime` cell
  is not one of its own fields.  The cell `&doc.FetchTime` is never written, so a pointer to
  it is represented by the value it holds.  Within the merge the
  pointers `updated` and `d` (or `updated` and `doc`) are aliases of one object; this is
  kept by threading the object's state through the assignments in program order.
* Calls into pgx and into the store behind the service's `Repo` interface are external; their
  results are parameters (`BeginResult`, `Env`) and the calls are logged in a trace.
-/

namespace Updater

/-- Modelled from the spec: the entity type `document.Model` of package
`internal/entity/document`, whose declaration is not among the sources.  The fields are those
of the message in the task comment (service.go lines 12-18) and of section 3 of the
specification; `FirstFetchTime` is a `*uint64`, nil when absent. -/
structure Model where
  Url : String
  PubDate : Nat
  FetchTime : Nat
  Text : String
  FirstFetchTime : Option Nat
deriving DecidableEq, Repr

/-- Go error values: an error produced outside this repository, or
`fmt.Errorf("<context>: %w", cause)`. -/
inductive Error where
  | base (msg : String)
  | wrap (context : String) (cause : Error)
deriving DecidableEq, Repr

/-- Outcome of running a piece of Go code: it returns a value, or it panics. -/
inductive Run (α : Type) where
  | ret (a : α)
  | panic
deriving DecidableEq, Repr

namespace Service

/-- State of the objects touched by lines 87-103 of service.go once the block has run:
the object behind `d` (none when `d` is nil), the object behind `doc`, and the value of the
object the pointer `updated` refers to. -/
structure Frame where
  d : Option Model
  doc : Model
  updated : Model
deriving DecidableEq, Repr

/-- Lines 87-103 of service.go.  `updated = d` makes `updated` an alias of `d`, so the
assignments through `updated` change the object `d`, and the second comparison reads
`*d.FirstFetchTime` from the object as the first `if` left it.  With `d == nil` the pointer
`updated` is an alias of `doc` and `doc.FirstFetchTime` is set.  Dereferencing a nil
`d.FirstFetchTime` panics. -/
def mergeFrame (d : Option Model) (doc : Model) : Run Frame :=
  match d with
  | some d0 =>
    let d1 : Model :=
      if doc.FetchTime > d0.FetchTime then
        { d0 with FetchTime := doc.FetchTime, Text := doc.Text }
      else d0
    match d1.FirstFetchTime with
    | none => Run.panic
    | some first =>
      let d2 : Model :=
        if doc.FetchTime < first then
          { d1 with PubDate := doc.PubDate, FirstFetchTime := some doc.FetchTime }
        else d1
      Run.ret { d := some d2, doc := doc, updated := d2 }
  | none =>
    let doc1 : Model := { doc with FirstFetchTime := some doc.FetchTime }
    Run.ret { d := none, doc := doc1, updated := doc1 }

/-- The merge of Service.UpsertDoc as a function of the stored record and the incoming
update: the record `updated` refers to after lines 87-103. -/
def merge (existing : Option Model) (incoming : Model) : Run Model :=
  match mergeFrame existing incoming with
  | Run.ret f => Run.ret f.updated
  | Run.panic => Run.panic

/-- One step of processing a stream of updates: the previous result serves as `existing`. -/
def step (st : Run (Option Model)) (u : Model) : Run (Option Model) :=
  match st with
  | Run.panic => Run.panic
  | Run.ret existing =>
    match merge existing u with
    | Run.ret r => Run.ret (some r)
    | Run.panic => Run.panic

/-- The record obtained from an absent record by merging the updates of `us` in turn. -/
def process (us : List Model) : Run (Option Model) :=
  us.foldl step (Run.ret none)

end Service

/-- A transaction handle `pgx.Tx` handed out by BeginTx. -/
structure TxHandle where
  id : Nat
deriving DecidableEq, Repr

/-- Result of the external call `r.db.BeginTx`: the handle (none for a nil interface value)
and the error. -/
structure BeginResult where
  txDB : Option TxHandle
  err : Option Error
deriving DecidableEq, Repr

/-- Calls a work function makes on the store through the transaction handle. -/
inductive StoreCall where
  | GetByURL (url : String)
  | UpsertDoc (doc : Model)
deriving DecidableEq, Repr

/-- Observable actions of one run of Repo.Tx, in program order. -/
inductive Event where
  | BeginTx
  | Fn
  | Store (c : StoreCall)
  | Commit
  | Rollback
deriving DecidableEq, Repr

/-- One run of a work function `fn`: the store calls it made, and either the state of the
variables it captured together with the error it returned, or a panic. -/
structure FnRun (β : Type) where
  calls : List StoreCall
  result : Run (β × Option Error)

/-- One run of Repo.Tx: the trace of actions, the captured variables as `fn` left them
(none when `fn` did not run to its return), and what Tx returned. -/
structure TxRun (β : Type) where
  trace : List Event
  captured : Option β
  result : Run (Option Error)

namespace Repository

/-- The database behind the connection pool. -/
structure Pool where
  rows : List Model
deriving DecidableEq, Repr

/-- The struct `Repo` of repo.go. -/
structure Repo where
  db : Pool
deriving DecidableEq, Repr

/-- Lines 18-21 of repo.go: the body is `return nil`; the repository is left as it was. -/
def Repo.UpsertDoc (r : Repo) (_doc : Model) : Repo × Option Error :=
  (r, none)

/-- Lines 23-26 of repo.go: the body is `return nil, nil`. -/
def Repo.GetByURL (_r : Repo) (_url : String) : Option Model × Option Error :=
  (none, none)

/-- The deferred function of Repo.Tx (lines 30-32): `txDB.Rollback(ctx)` runs when Tx leaves,
after `trace` and with `result` pending; on a nil `txDB` the method call panics. -/
def deferredRollback {β : Type} (txDB : Option TxHandle) (trace : List Event)
    (captured : Option β) (result : Run (Option Error)) : TxRun β :=
  match txDB with
  | some _ => { trace := trace ++ [Event.Rollback], captured := captured, result := result }
  | none => { trace := trace, captured := captured, result := Run.panic }

/-- Lines 28-44 of repo.go.  `b` is what BeginTx returned and `commit` what `txDB.Commit`
returns when called.  The defer is registered before `err` is inspected. -/
def Repo.Tx {β : Type} (b : BeginResult) (fn : Option TxHandle → FnRun β)
    (commit : Option Error) : TxRun β :=
  match b.err with
  | some e => deferredRollback b.txDB [Event.BeginTx] none (Run.ret (some e))
  | none =>
    let run := fn b.txDB
    let t := [Event.BeginTx, Event.Fn] ++ run.calls.map Event.Store
    match run.result with
    | Run.panic => deferredRollback b.txDB t none Run.panic
    | Run.ret (vars, some e) => deferredRollback b.txDB t (some vars) (Run.ret (some e))
    | Run.ret (vars, none) =>
      match b.txDB with
      | some _ => deferredRollback b.txDB (t ++ [Event.Commit]) (some vars) (Run.ret commit)
      | none => deferredRollback b.txDB t (some vars) Run.panic

end Repository

/-- Results of the external calls one run of Service.UpsertDoc can make. -/
structure Env where
  begin : BeginResult
  getByURL : String → Option Model × Option Error
  upsertDoc : Model → Option Error
  commit : Option Error

namespace Service

/-- The closure passed to `s.repo.Tx` (service.go lines 71-112).  The captured variable is
`updated` (nil until line 87). -/
def UpsertDoc.fn (env : Env) (doc : Model) (_tx : Option TxHandle) : FnRun (Option Model) :=
  match env.getByURL doc.Url with
  | (_, some e) =>
    { calls := [StoreCall.GetByURL doc.Url],
      result := Run.ret (none, some (Error.wrap "repo.GetByURL" e)) }
  | (d, none) =>
    match merge d doc with
    | Run.panic => { calls := [StoreCall.GetByURL doc.Url], result := Run.panic }
    | Run.ret updated =>
      match env.upsertDoc updated with
      | some e =>
        { calls := [StoreCall.GetByURL doc.Url, StoreCall.UpsertDoc updated],
          result := Run.ret (some updated, some (Error.wrap "repo.UpsertDoc" e)) }
      | none =>
        { calls := [StoreCall.GetByURL doc.Url, StoreCall.UpsertDoc updated],
          result := Run.ret (some updated, none) }

/-- Service.UpsertDoc (service.go lines 68-119) over Repo.Tx of repo.go: the trace of the
run and the pair the method returns. -/
def UpsertDoc (env : Env) (doc : Model) : List Event × Run (Option Model × Option Error) :=
  let tx := Repository.Repo.Tx env.begin (UpsertDoc.fn env doc) env.commit
  match tx.result with
  | Run.panic => (tx.trace, Run.panic)
  | Run.ret (some e) => (tx.trace, Run.ret (none, some (Error.wrap "s.repo.Tx" e)))
  | Run.ret none =>
    match tx.captured with
    | some updated => (tx.trace, Run.ret (updated, none))
    | none => (tx.trace, Run.ret (none, none))

end Service

namespace Kafka

/-- Handler.Process (handler.go lines 21-28). -/
def Handler.Process (env : Env) (doc : Model) : List Event × Run (Option Model × Option Error) :=
  match Service.UpsertDoc env doc with
  | (t, Run.panic) => (t, Run.panic)
  | (t, Run.ret (_, some e)) => (t, Run.ret (none, some (Error.wrap "upsert doc" e)))
  | (t, Run.ret (d, none)) => (t, Run.ret (d, none))

end Kafka

/-! ## The merge step -/

namespace Service

theorem merge_absent (incoming : Model) :
    merge none incoming = Run.ret { incoming with FirstFetchTime := some incoming.FetchTime } := by
  rfl

theorem merge_present (existing incoming : Model) (first : Nat)
    (h : existing.FirstFetchTime = some first) :
    merge (some existing) incoming = Run.ret
      { Url := existing.Url,
        PubDate := if incoming.FetchTime < first then incoming.PubDate else existing.PubDate,
        FetchTime :=
          if incoming.FetchTime > existing.FetchTime then incoming.FetchTime
          else existing.FetchTime,
        Text := if incoming.FetchTime > existing.FetchTime then incoming.Text else existing.Text,
        FirstFetchTime := some (if incoming.FetchTime < first then incoming.FetchTime else first) } := by
  obtain ⟨url, pub, ft, text, fft⟩ := existing
  simp only at h
  subst h
  unfold merge mergeFrame
  by_cases h1 : incoming.FetchTime > ft <;> by_cases h2 : incoming.FetchTime < first <;>
    simp [h1, h2]

theorem merge_unpopulated (existing incoming : Model) (h : existing.FirstFetchTime = none) :
    merge (some existing) incoming = Run.panic := by
  obtain ⟨url, pub, ft, text, fft⟩ := existing
  simp only at h
  subst h
  unfold merge mergeFrame
  by_cases h1 : incoming.FetchTime > ft <;> simp [h1]

theorem process_snoc (us : List Model) (u : Model) :
    process (us ++ [u]) = step (process us) u := by
  unfold process
  rw [List.foldl_append]
  rfl

theorem process_single (u : Model) :
    process [u] = Run.ret (some { u with FirstFetchTime := some u.FetchTime }) := by
  rfl

/-- What the fold computes on a non-empty list: the url of the first update, the latest
fields of an update with the greatest FetchTime and the earliest fields of an update with the
least FetchTime. -/
theorem process_extremes (u0 : Model) (us : List Model) :
    ∃ r, process (u0 :: us) = Run.ret (some r) ∧ r.Url = u0.Url ∧
      (∃ a ∈ u0 :: us, (∀ v ∈ u0 :: us, v.FetchTime ≤ a.FetchTime) ∧
        r.FetchTime = a.FetchTime ∧ r.Text = a.Text) ∧
      (∃ b ∈ u0 :: us, (∀ v ∈ u0 :: us, b.FetchTime ≤ v.FetchTime) ∧
        r.FirstFetchTime = some b.FetchTime ∧ r.PubDate = b.PubDate) := by
  induction us using List.reverseRecOn with
  | nil =>
    refine ⟨_, process_single u0, rfl, ⟨u0, by simp, by simp, rfl, rfl⟩,
      ⟨u0, by simp, by simp, rfl, rfl⟩⟩
  | append_singleton us u ih =>
    obtain ⟨r, hr, hurl, ⟨a, ha, hamax, hft, htext⟩, ⟨b, hb, hbmin, hfft, hpub⟩⟩ := ih
    have hstep : process (u0 :: (us ++ [u])) = step (process (u0 :: us)) u := by
      rw [← List.cons_append]
      exact process_snoc (u0 :: us) u
    rw [hstep, hr]
    simp only [step, merge_present r u b.FetchTime hfft]
    refine ⟨_, rfl, hurl, ?_, ?_⟩
    · by_cases h1 : u.FetchTime > r.FetchTime
      · refine ⟨u, by simp, ?_, by simp only [if_pos h1], by simp only [if_pos h1]⟩
        intro v hv
        rw [← List.cons_append, List.mem_append, List.mem_singleton] at hv
        rcases hv with hv | hv
        · have := hamax v hv
          omega
        · rw [hv]
      · refine ⟨a, ?_, ?_, by simp only [if_neg h1]; exact hft, by simp only [if_neg h1]; exact htext⟩
        · rw [← List.cons_append, List.mem_append]
          exact Or.inl ha
        · intro v hv
          rw [← List.cons_append, List.mem_append, List.mem_singleton] at hv
          rcases hv with hv | hv
          · exact hamax v hv
          · rw [hv]
            omega
    · by_cases h2 : u.FetchTime < b.FetchTime
      · refine ⟨u, by simp, ?_, by simp only [if_pos h2], by simp only [if_pos h2]⟩
        intro v hv
        rw [← List.cons_append, List.mem_append, List.mem_singleton] at hv
        rcases hv with hv | hv
        · have := hbmin v hv
          omega
        · rw [hv]
      · refine ⟨b, ?_, ?_, by simp only [if_neg h2], by simp only [if_neg h2]; exact hpub⟩
        · rw [← List.cons_append, List.mem_append]
          exact Or.inl hb
        · intro v hv
          rw [← List.cons_append, List.mem_append, List.mem_singleton] at hv
          rcases hv with hv | hv
          · exact hbmin v hv
          · rw [hv]
            omega

/-- C1: for a non-empty list of updates of one url in which updates with equal FetchTime are
identical, folding the merge from an absent record returns a record whose FetchTime is the
greatest FetchTime of the list and whose Text is the text of the update with that
FetchTime. -/
theorem process_latest_fields (us : List Model) (url : String) (hne : us ≠ [])
    (_hurl : ∀ u ∈ us, u.Url = url)
    (huniq : ∀ u ∈ us, ∀ v ∈ us, u.FetchTime = v.FetchTime → u = v) :
    ∃ r, process us = Run.ret (some r) ∧
      (∃ m ∈ us, ∀ v ∈ us, v.FetchTime ≤ m.FetchTime) ∧
      ∀ m ∈ us, (∀ v ∈ us, v.FetchTime ≤ m.FetchTime) →
        r.FetchTime = m.FetchTime ∧ r.Text = m.Text := by
  cases us with
  | nil => exact absurd rfl hne
  | cons u0 us =>
    obtain ⟨r, hr, -, ⟨a, ha, hamax, hft, htext⟩, -⟩ := process_extremes u0 us
    refine ⟨r, hr, ⟨a, ha, hamax⟩, ?_⟩
    intro m hm hmmax
    have h1 := hamax m hm
    have h2 := hmmax a ha
    have hma : m = a := huniq m hm a ha (by omega)
    rw [hma]
    exact ⟨hft, htext⟩

theorem process_latest_fields_witness :
    ([⟨"A", 100, 5, "v5", none⟩, ⟨"A", 90, 3, "v3", none⟩] : List Model) ≠ [] ∧
    ∃ r, process [⟨"A", 100, 5, "v5", none⟩, ⟨"A", 90, 3, "v3", none⟩] = Run.ret (some r) ∧
      (∃ m ∈ ([⟨"A", 100, 5, "v5", none⟩, ⟨"A", 90, 3, "v3", none⟩] : List Model),
        ∀ v ∈ ([⟨"A", 100, 5, "v5", none⟩, ⟨"A", 90, 3, "v3", none⟩] : List Model),
          v.FetchTime ≤ m.FetchTime) ∧
      ∀ m ∈ ([⟨"A", 100, 5, "v5", none⟩, ⟨"A", 90, 3, "v3", none⟩] : List Model),
        (∀ v ∈ ([⟨"A", 100, 5, "v5", none⟩, ⟨"A", 90, 3, "v3", none⟩] : List Model),
          v.FetchTime ≤ m.FetchTime) →
        r.FetchTime = m.FetchTime ∧ r.Text = m.Text :=
  ⟨by decide,
    process_latest_fields [⟨"A", 100, 5, "v5", none⟩, ⟨"A", 90, 3, "v3", none⟩] "A"
      (by decide) (by decide) (by decide)⟩

/-- C2: for a non-empty list of updates of one url in which updates with equal FetchTime are
identical, folding the merge from an absent record returns a record whose FirstFetchTime is
present and is the least FetchTime of the list, and whose PubDate is the PubDate of the
update with that least FetchTime. -/
theorem process_earliest_fields (us : List Model) (url : String) (hne : us ≠ [])
    (_hurl : ∀ u ∈ us, u.Url = url)
    (huniq : ∀ u ∈ us, ∀ v ∈ us, u.FetchTime = v.FetchTime → u = v) :
    ∃ r, process us = Run.ret (some r) ∧
      (∃ m ∈ us, ∀ v ∈ us, m.FetchTime ≤ v.FetchTime) ∧
      ∀ m ∈ us, (∀ v ∈ us, m.FetchTime ≤ v.FetchTime) →
        r.FirstFetchTime = some m.FetchTime ∧ r.PubDate = m.PubDate := by
  cases us with
  | nil => exact absurd rfl hne
  | cons u0 us =>
    obtain ⟨r, hr, -, -, ⟨b, hb, hbmin, hfft, hpub⟩⟩ := process_extremes u0 us
    refine ⟨r, hr, ⟨b, hb, hbmin⟩, ?_⟩
    intro m hm hmmin
    have h1 := hbmin m hm
    have h2 := hmmin b hb
    have hmb : m = b := huniq m hm b hb (by omega)
    rw [hmb]
    exact ⟨hfft, hpub⟩

theorem process_earliest_fields_witness :
    ([⟨"A", 10, 5, "v5", none⟩, ⟨"A", 90, 3, "v3", none⟩] : List Model) ≠ [] ∧
    ∃ r, process [⟨"A", 10, 5, "v5", none⟩, ⟨"A", 90, 3, "v3", none⟩] = Run.ret (some r) ∧
      (∃ m ∈ ([⟨"A", 10, 5, "v5", none⟩, ⟨"A", 90, 3, "v3", none⟩] : List Model),
        ∀ v ∈ ([⟨"A", 10, 5, "v5", none⟩, ⟨"A", 90, 3, "v3", none⟩] : List Model),
          m.FetchTime ≤ v.FetchTime) ∧
      ∀ m ∈ ([⟨"A", 10, 5, "v5", none⟩, ⟨"A", 90, 3, "v3", none⟩] : List Model),
        (∀ v ∈ ([⟨"A", 10, 5, "v5", none⟩, ⟨"A", 90, 3, "v3", none⟩] : List Model),
          m.FetchTime ≤ v.FetchTime) →
        r.FirstFetchTime = some m.FetchTime ∧ r.PubDate = m.PubDate :=
  ⟨by decide,
    process_earliest_fields [⟨"A", 10, 5, "v5", none⟩, ⟨"A", 90, 3, "v3", none⟩] "A"
      (by decide) (by decide) (by decide)⟩

/-- C3: order-independence.  Two lists of updates of one url that contain the same updates
(each at least once, in any order, with any repeats), updates with equal FetchTime being
identical, fold to the same final record in all five fields. -/
theorem process_order_independent (us vs : List Model) (url : String)
    (hurl : ∀ u ∈ us, u.Url = url)
    (huniq : ∀ u ∈ us, ∀ v ∈ us, u.FetchTime = v.FetchTime → u = v)
    (hsame : ∀ u, u ∈ us ↔ u ∈ vs) :
    process us = process vs := by
  cases us with
  | nil =>
    cases vs with
    | nil => rfl
    | cons v0 vs => exact absurd ((hsame v0).2 (List.mem_cons_self v0 vs)) (List.not_mem_nil v0)
  | cons u0 us =>
    cases vs with
    | nil => exact absurd ((hsame u0).1 (List.mem_cons_self u0 us)) (List.not_mem_nil u0)
    | cons v0 vs =>
      obtain ⟨r, hr, hru, ⟨a, ha, hamax, hft, htext⟩, ⟨b, hb, hbmin, hfft, hpub⟩⟩ :=
        process_extremes u0 us
      obtain ⟨s, hs, hsu, ⟨a2, ha2, ha2max, hft2, htext2⟩, ⟨b2, hb2, hb2min, hfft2, hpub2⟩⟩ :=
        process_extremes v0 vs
      have hv0 : v0 ∈ u0 :: us := (hsame v0).2 (List.mem_cons_self v0 vs)
      have ha2us : a2 ∈ u0 :: us := (hsame a2).2 ha2
      have hb2us : b2 ∈ u0 :: us := (hsame b2).2 hb2
      have haa : a = a2 := by
        have h1 := hamax a2 ha2us
        have h2 := ha2max a ((hsame a).1 ha)
        exact huniq a ha a2 ha2us (by omega)
      have hbb : b = b2 := by
        have h1 := hbmin b2 hb2us
        have h2 := hb2min b ((hsame b).1 hb)
        exact huniq b hb b2 hb2us (by omega)
      have hrs : r = s := by
        obtain ⟨rUrl, rPub, rFt, rText, rFft⟩ := r
        obtain ⟨sUrl, sPub, sFt, sText, sFft⟩ := s
        simp only at hru hft htext hfft hpub hsu hft2 htext2 hfft2 hpub2
        rw [hru, hft, htext, hfft, hpub, hsu, hft2, htext2, hfft2, hpub2, haa, hbb,
          hurl u0 (List.mem_cons_self u0 us), hurl v0 hv0]
      rw [hr, hs, hrs]

theorem process_order_independent_witness :
    (∀ u, u ∈ ([⟨"A", 100, 5, "v5", none⟩, ⟨"A", 90, 3, "v3", none⟩] : List Model) ↔
      u ∈ ([⟨"A", 90, 3, "v3", none⟩, ⟨"A", 100, 5, "v5", none⟩, ⟨"A", 90, 3, "v3", none⟩] :
        List Model)) ∧
    process [⟨"A", 100, 5, "v5", none⟩, ⟨"A", 90, 3, "v3", none⟩] =
      process [⟨"A", 90, 3, "v3", none⟩, ⟨"A", 100, 5, "v5", none⟩, ⟨"A", 90, 3, "v3", none⟩] :=
  have hsame : ∀ u, u ∈ ([⟨"A", 100, 5, "v5", none⟩, ⟨"A", 90, 3, "v3", none⟩] : List Model) ↔
      u ∈ ([⟨"A", 90, 3, "v3", none⟩, ⟨"A", 100, 5, "v5", none⟩, ⟨"A", 90, 3, "v3", none⟩] :
        List Model) := by
    intro u
    simp only [List.mem_cons, List.mem_singleton, List.not_mem_nil, or_false]
    tauto
  ⟨hsame,
    process_order_independent [⟨"A", 100, 5, "v5", none⟩, ⟨"A", 90, 3, "v3", none⟩]
      [⟨"A", 90, 3, "v3", none⟩, ⟨"A", 100, 5, "v5", none⟩, ⟨"A", 90, 3, "v3", none⟩] "A"
      (by decide) (by decide) hsame⟩

/-- C4: single-step merge rule.  For a stored record whose FirstFetchTime is populated the
merge returns a record with the stored url; Text and FetchTime are the incoming ones exactly
when incoming.FetchTime > existing.FetchTime; PubDate and FirstFetchTime are the incoming
PubDate and FetchTime exactly when incoming.FetchTime < existing.FirstFetchTime; both
comparisons are against the values `existing` had before the step. -/
theorem merge_single_step (existing incoming : Model) (first : Nat)
    (h : existing.FirstFetchTime = some first) :
    ∃ r, merge (some existing) incoming = Run.ret r ∧
      r.Url = existing.Url ∧
      (r.Text, r.FetchTime) =
        (if incoming.FetchTime > existing.FetchTime then (incoming.Text, incoming.FetchTime)
         else (existing.Text, existing.FetchTime)) ∧
      (r.PubDate, r.FirstFetchTime) =
        (if incoming.FetchTime < first then (incoming.PubDate, some incoming.FetchTime)
         else (existing.PubDate, some first)) := by
  refine ⟨_, merge_present existing incoming first h, rfl, ?_, ?_⟩
  · by_cases h1 : incoming.FetchTime > existing.FetchTime
    · simp only [if_pos h1]
    · simp only [if_neg h1]
  · by_cases h2 : incoming.FetchTime < first
    · simp only [if_pos h2]
    · simp only [if_neg h2, h]

theorem merge_single_step_witness :
    (⟨"A", 100, 5, "v5", some 5⟩ : Model).FirstFetchTime = some 5 ∧
    ∃ r, merge (some ⟨"A", 100, 5, "v5", some 5⟩) ⟨"A", 90, 3, "v3", none⟩ = Run.ret r ∧
      r.Url = (⟨"A", 100, 5, "v5", some 5⟩ : Model).Url ∧
      (r.Text, r.FetchTime) =
        (if (⟨"A", 90, 3, "v3", none⟩ : Model).FetchTime >
            (⟨"A", 100, 5, "v5", some 5⟩ : Model).FetchTime then
          ((⟨"A", 90, 3, "v3", none⟩ : Model).Text, (⟨"A", 90, 3, "v3", none⟩ : Model).FetchTime)
         else
          ((⟨"A", 100, 5, "v5", some 5⟩ : Model).Text,
            (⟨"A", 100, 5, "v5", some 5⟩ : Model).FetchTime)) ∧
      (r.PubDate, r.FirstFetchTime) =
        (if (⟨"A", 90, 3, "v3", none⟩ : Model).FetchTime < 5 then
          ((⟨"A", 90, 3, "v3", none⟩ : Model).PubDate,
            some (⟨"A", 90, 3, "v3", none⟩ : Model).FetchTime)
         else ((⟨"A", 100, 5, "v5", some 5⟩ : Model).PubDate, some 5)) :=
  ⟨rfl, merge_single_step ⟨"A", 100, 5, "v5", some 5⟩ ⟨"A", 90, 3, "v3", none⟩ 5 rfl⟩

/-- C5: first-ever update.  When GetByURL returns no record for the incoming url, every
record Service.UpsertDoc hands to the store upsert and every record it returns is the
incoming update with FirstFetchTime set to the incoming FetchTime; and once the transaction
was begun that record is handed to the store, and it is returned when the store upsert and
Commit report no error. -/
theorem upsertDoc_first_update (env : Env) (doc : Model)
    (hget : env.getByURL doc.Url = (none, none)) :
    (∀ m, Event.Store (StoreCall.UpsertDoc m) ∈ (UpsertDoc env doc).1 →
      m = ⟨doc.Url, doc.PubDate, doc.FetchTime, doc.Text, some doc.FetchTime⟩) ∧
    (∀ m e, (UpsertDoc env doc).2 = Run.ret (some m, e) →
      m = ⟨doc.Url, doc.PubDate, doc.FetchTime, doc.Text, some doc.FetchTime⟩) ∧
    (∀ h, env.begin = ⟨some h, none⟩ →
      Event.Store (StoreCall.UpsertDoc
        ⟨doc.Url, doc.PubDate, doc.FetchTime, doc.Text, some doc.FetchTime⟩) ∈
          (UpsertDoc env doc).1 ∧
      (env.upsertDoc ⟨doc.Url, doc.PubDate, doc.FetchTime, doc.Text, some doc.FetchTime⟩ = none →
        env.commit = none →
        (UpsertDoc env doc).2 =
          Run.ret (some ⟨doc.Url, doc.PubDate, doc.FetchTime, doc.Text, some doc.FetchTime⟩,
            none))) := by
  obtain ⟨⟨txDB, berr⟩, getByURL, upsertDoc, commit⟩ := env
  simp only at hget
  refine ⟨?_, ?_, ?_⟩
  · intro m
    cases berr <;> cases txDB <;>
      cases hup : upsertDoc ⟨doc.Url, doc.PubDate, doc.FetchTime, doc.Text, some doc.FetchTime⟩ <;>
      cases commit <;>
      simp [UpsertDoc, UpsertDoc.fn, Repository.Repo.Tx, Repository.deferredRollback, hget,
        merge_absent, hup]
  · intro m e
    cases berr <;> cases txDB <;>
      cases hup : upsertDoc ⟨doc.Url, doc.PubDate, doc.FetchTime, doc.Text, some doc.FetchTime⟩ <;>
      cases commit <;>
      simp [UpsertDoc, UpsertDoc.fn, Repository.Repo.Tx, Repository.deferredRollback, hget,
        merge_absent, hup]
    intro hm _
    exact hm.symm
  · intro h hb
    simp only [BeginResult.mk.injEq] at hb
    obtain ⟨h1, h2⟩ := hb
    subst h1 h2
    refine ⟨?_, ?_⟩
    · cases hup : upsertDoc ⟨doc.Url, doc.PubDate, doc.FetchTime, doc.Text, some doc.FetchTime⟩ <;>
        cases commit <;>
        simp [UpsertDoc, UpsertDoc.fn, Repository.Repo.Tx, Repository.deferredRollback, hget,
          merge_absent, hup]
    · intro hup hc
      simp only at hup hc
      subst hc
      simp [UpsertDoc, UpsertDoc.fn, Repository.Repo.Tx, Repository.deferredRollback, hget,
        merge_absent, hup]

theorem upsertDoc_first_update_witness :
    (fun _ : String => ((none : Option Model), (none : Option Error))) "B" = (none, none) ∧
    (UpsertDoc ⟨⟨some ⟨1⟩, none⟩, fun _ => (none, none), fun _ => none, none⟩
        ⟨"B", 50, 7, "x", none⟩).2 =
      Run.ret (some ⟨"B", 50, 7, "x", some 7⟩, none) :=
  ⟨rfl,
    ((upsertDoc_first_update ⟨⟨some ⟨1⟩, none⟩, fun _ => (none, none), fun _ => none, none⟩
      ⟨"B", 50, 7, "x", none⟩ rfl).2.2 ⟨1⟩ rfl).2 rfl rfl⟩

/-- C6: idempotence.  For `existing` absent or a record with FirstFetchTime populated, the
merge returns a record, and merging the same update again into that record returns it
unchanged. -/
theorem merge_idempotent (existing : Option Model) (i : Model)
    (hpop : ∀ e, existing = some e → ∃ first, e.FirstFetchTime = some first) :
    ∃ r, merge existing i = Run.ret r ∧ merge (some r) i = Run.ret r := by
  cases existing with
  | none =>
    refine ⟨_, merge_absent i, ?_⟩
    rw [merge_present _ i i.FetchTime rfl]
    simp
  | some e =>
    obtain ⟨first, hfirst⟩ := hpop e rfl
    refine ⟨_, merge_present e i first hfirst, ?_⟩
    rw [merge_present _ i _ rfl]
    by_cases h1 : i.FetchTime > e.FetchTime <;> by_cases h2 : i.FetchTime < first <;>
      simp [h1, h2]

theorem merge_idempotent_witness :
    (∀ e, some (⟨"A", 100, 5, "v5", some 5⟩ : Model) = some e →
      ∃ first, e.FirstFetchTime = some first) ∧
    ∃ r, merge (some ⟨"A", 100, 5, "v5", some 5⟩) ⟨"A", 90, 3, "v3", none⟩ = Run.ret r ∧
      merge (some r) ⟨"A", 90, 3, "v3", none⟩ = Run.ret r :=
  have hpop : ∀ e, some (⟨"A", 100, 5, "v5", some 5⟩ : Model) = some e →
      ∃ first, e.FirstFetchTime = some first := by
    intro e he
    cases he
    exact ⟨5, rfl⟩
  ⟨hpop, merge_idempotent (some ⟨"A", 100, 5, "v5", some 5⟩) ⟨"A", 90, 3, "v3", none⟩ hpop⟩

/-- C7 as stated fails: a record with FirstFetchTime populated but greater than its FetchTime
and an incoming update with the same FetchTime.  The second comparison is true and the merge
replaces PubDate and FirstFetchTime. -/
theorem duplicate_fetchTime_counterexample :
    (⟨"A", 100, 5, "v5", some 9⟩ : Model).FirstFetchTime = some 9 ∧
    (⟨"A", 50, 5, "x", none⟩ : Model).FetchTime = (⟨"A", 100, 5, "v5", some 9⟩ : Model).FetchTime ∧
    (⟨"A", 50, 5, "x", none⟩ : Model).FetchTime < 9 ∧
    merge (some ⟨"A", 100, 5, "v5", some 9⟩) ⟨"A", 50, 5, "x", none⟩ =
      Run.ret ⟨"A", 50, 5, "v5", some 5⟩ ∧
    merge (some ⟨"A", 100, 5, "v5", some 9⟩) ⟨"A", 50, 5, "x", none⟩ ≠
      Run.ret ⟨"A", 100, 5, "v5", some 9⟩ := by
  decide

/-- C7 (amended): for a stored record with FirstFetchTime populated and not greater than its
FetchTime, and an incoming update with the same FetchTime, both comparisons of the merge are
false and the merge returns the stored record unchanged in all five fields. -/
theorem merge_duplicate_unchanged (existing incoming : Model) (first : Nat)
    (hfirst : existing.FirstFetchTime = some first)
    (hwf : first ≤ existing.FetchTime)
    (hdup : incoming.FetchTime = existing.FetchTime) :
    ¬ (incoming.FetchTime > existing.FetchTime) ∧ ¬ (incoming.FetchTime < first) ∧
      merge (some existing) incoming = Run.ret existing := by
  have h1 : ¬ (incoming.FetchTime > existing.FetchTime) := by omega
  have h2 : ¬ (incoming.FetchTime < first) := by omega
  refine ⟨h1, h2, ?_⟩
  rw [merge_present existing incoming first hfirst]
  obtain ⟨url, pub, ft, text, fft⟩ := existing
  simp only at hfirst h1 h2
  simp [h1, h2, hfirst]

theorem merge_duplicate_unchanged_witness :
    (⟨"A", 90, 5, "v5", some 3⟩ : Model).FirstFetchTime = some 3 ∧
    3 ≤ (⟨"A", 90, 5, "v5", some 3⟩ : Model).FetchTime ∧
    (⟨"A", 100, 5, "v5", none⟩ : Model).FetchTime = (⟨"A", 90, 5, "v5", some 3⟩ : Model).FetchTime ∧
    (¬ ((⟨"A", 100, 5, "v5", none⟩ : Model).FetchTime >
        (⟨"A", 90, 5, "v5", some 3⟩ : Model).FetchTime) ∧
      ¬ ((⟨"A", 100, 5, "v5", none⟩ : Model).FetchTime < 3) ∧
      merge (some ⟨"A", 90, 5, "v5", some 3⟩) ⟨"A", 100, 5, "v5", none⟩ =
        Run.ret ⟨"A", 90, 5, "v5", some 3⟩) :=
  ⟨rfl, by decide, rfl,
    merge_duplicate_unchanged ⟨"A", 90, 5, "v5", some 3⟩ ⟨"A", 100, 5, "v5", none⟩ 3 rfl
      (by decide) rfl⟩

end Service

/-! ## The transactional wrapper -/

namespace Repository

theorem store_events_count (calls : List StoreCall) (e : Event)
    (he : ∀ c, e ≠ Event.Store c) : (calls.map Event.Store).count e = 0 := by
  rw [List.count_eq_zero]
  intro hmem
  obtain ⟨c, -, hc⟩ := List.mem_map.1 hmem
  exact he c hc.symm

/-- The trace of a run of Repo.Tx on a transaction that was begun: BeginTx, the call of `fn`
with its store calls, Commit when `fn` returned no error, and Rollback. -/
theorem tx_trace_begun {β : Type} (h : TxHandle) (fn : Option TxHandle → FnRun β)
    (commit : Option Error) :
    (Repo.Tx ⟨some h, none⟩ fn commit).trace =
      ([Event.BeginTx, Event.Fn] ++ (fn (some h)).calls.map Event.Store ++
        (match (fn (some h)).result with
          | Run.ret (_, none) => [Event.Commit]
          | _ => [])) ++ [Event.Rollback] := by
  cases hres : (fn (some h)).result with
  | panic => simp [Repo.Tx, deferredRollback, hres]
  | ret p =>
    obtain ⟨vars, e⟩ := p
    cases e <;> simp [Repo.Tx, deferredRollback, hres]

/-- C8: commit and rollback of Repo.Tx for a transaction that was begun successfully.  Commit
is called exactly when `fn` returns no error; when `fn` returns an error, Tx returns that
error and Commit is not called; when `fn` returns no error, Tx returns what Commit returned. -/
theorem tx_commit_iff_fn_ok {β : Type} (h : TxHandle) (fn : Option TxHandle → FnRun β)
    (commit : Option Error) :
    (Event.Commit ∈ (Repo.Tx ⟨some h, none⟩ fn commit).trace ↔
      ∃ vars, (fn (some h)).result = Run.ret (vars, none)) ∧
    (∀ vars e, (fn (some h)).result = Run.ret (vars, some e) →
      (Repo.Tx ⟨some h, none⟩ fn commit).result = Run.ret (some e) ∧
      Event.Commit ∉ (Repo.Tx ⟨some h, none⟩ fn commit).trace) ∧
    (∀ vars, (fn (some h)).result = Run.ret (vars, none) →
      (Repo.Tx ⟨some h, none⟩ fn commit).result = Run.ret commit) := by
  refine ⟨?_, ?_, ?_⟩
  · rw [tx_trace_begun]
    cases hres : (fn (some h)).result with
    | panic => simp
    | ret p =>
      obtain ⟨vars, e⟩ := p
      cases e <;> simp
  · intro vars e hres
    refine ⟨by simp [Repo.Tx, deferredRollback, hres], ?_⟩
    rw [tx_trace_begun, hres]
    simp
  · intro vars hres
    simp [Repo.Tx, deferredRollback, hres]

/-- C9: on every run of Repo.Tx whose transaction was begun successfully, Rollback is called
exactly once and as the last action, whether `fn` returned an error, panicked, or returned no
error and Commit failed or succeeded. -/
theorem tx_rollback_once_last {β : Type} (h : TxHandle) (fn : Option TxHandle → FnRun β)
    (commit : Option Error) :
    (Repo.Tx ⟨some h, none⟩ fn commit).trace.count Event.Rollback = 1 ∧
    (Repo.Tx ⟨some h, none⟩ fn commit).trace.getLast? = some Event.Rollback := by
  have hstore : (List.map Event.Store (fn (some h)).calls).count Event.Rollback = 0 :=
    store_events_count _ _ (fun c hc => by cases hc)
  rw [tx_trace_begun]
  refine ⟨?_, List.getLast?_concat _⟩
  cases hres : (fn (some h)).result with
  | panic => simp [List.count_cons, List.count_append, hstore]
  | ret p =>
    obtain ⟨vars, e⟩ := p
    cases e <;> simp [List.count_cons, List.count_append, hstore]

/-- C10 on the code: Repo.UpsertDoc returns no error for a record and leaves the repository
as it was, and Repo.GetByURL for that record's url then returns no record and no error. -/
theorem repo_roundtrip_absent :
    (Repo.UpsertDoc ⟨⟨[]⟩⟩ ⟨"A", 100, 5, "v5", some 5⟩).2 = none ∧
    Repo.GetByURL (Repo.UpsertDoc ⟨⟨[]⟩⟩ ⟨"A", 100, 5, "v5", some 5⟩).1 "A" = (none, none) := by
  decide

end Repository

/-! ## Effects, totality and well-formedness of the merge -/

namespace Service

/-- A record obtained by folding the merge over a non-empty list has FirstFetchTime
populated and not greater than its FetchTime. -/
theorem process_wellformed (us : List Model) (r : Model) (hne : us ≠ [])
    (hr : process us = Run.ret (some r)) :
    ∃ first, r.FirstFetchTime = some first ∧ first ≤ r.FetchTime := by
  cases us with
  | nil => exact absurd rfl hne
  | cons u0 us =>
    obtain ⟨s, hs, -, ⟨a, ha, -, hft, -⟩, ⟨b, -, hbmin, hfft, -⟩⟩ := process_extremes u0 us
    rw [hs] at hr
    cases hr
    exact ⟨b.FetchTime, hfft, by rw [hft]; exact hbmin a ha⟩

/-- C11 as stated fails: the merge writes through the pointers it was given.  With a stored
record present the object `d` is changed in place (here PubDate and FirstFetchTime); with no
stored record the incoming object `doc` gets its FirstFetchTime set. -/
theorem merge_mutates_counterexample :
    mergeFrame (some ⟨"A", 100, 5, "v5", some 5⟩) ⟨"A", 90, 3, "v3", none⟩ =
      Run.ret ⟨some ⟨"A", 90, 5, "v5", some 3⟩, ⟨"A", 90, 3, "v3", none⟩,
        ⟨"A", 90, 5, "v5", some 3⟩⟩ ∧
    (some ⟨"A", 90, 5, "v5", some 3⟩ : Option Model) ≠ some ⟨"A", 100, 5, "v5", some 5⟩ ∧
    mergeFrame none ⟨"B", 50, 7, "x", none⟩ =
      Run.ret ⟨none, ⟨"B", 50, 7, "x", some 7⟩, ⟨"B", 50, 7, "x", some 7⟩⟩ ∧
    (⟨"B", 50, 7, "x", some 7⟩ : Model) ≠ ⟨"B", 50, 7, "x", none⟩ := by
  decide

/-- C11 (amended): for `existing` absent or with FirstFetchTime populated the merge returns,
and afterwards the incoming object holds its former Url, PubDate, FetchTime and Text; with a
stored record present the incoming object is unchanged in all five fields and the result is
the stored object itself, updated in place, which keeps its former values exactly when
neither comparison holds; with no stored record the result is the incoming object itself,
with FirstFetchTime set to its FetchTime, so that the incoming object is unchanged exactly
when its FirstFetchTime already was its FetchTime. -/
theorem mergeFrame_effects (existing : Option Model) (incoming : Model)
    (hpop : ∀ e, existing = some e → ∃ first, e.FirstFetchTime = some first) :
    ∃ f, mergeFrame existing incoming = Run.ret f ∧
      f.doc.Url = incoming.Url ∧ f.doc.PubDate = incoming.PubDate ∧
      f.doc.FetchTime = incoming.FetchTime ∧ f.doc.Text = incoming.Text ∧
      (∀ e, existing = some e → f.doc = incoming ∧ f.d = some f.updated) ∧
      (existing = none →
        f.d = none ∧ f.doc = f.updated ∧ f.doc.FirstFetchTime = some incoming.FetchTime ∧
        (f.doc = incoming ↔ incoming.FirstFetchTime = some incoming.FetchTime)) ∧
      (∀ e first, existing = some e → e.FirstFetchTime = some first →
        (f.d = some e ↔
          ¬ (incoming.FetchTime > e.FetchTime) ∧ ¬ (incoming.FetchTime < first))) := by
  cases existing with
  | none =>
    refine ⟨_, rfl, rfl, rfl, rfl, rfl, ?_, ?_, ?_⟩
    · intro e he
      cases he
    · intro _
      refine ⟨rfl, rfl, rfl, ?_⟩
      obtain ⟨url, pub, ft, text, fft⟩ := incoming
      simp only [Model.mk.injEq, true_and]
      exact eq_comm
    · intro e first he
      cases he
  | some e =>
    obtain ⟨first, hfirst⟩ := hpop e rfl
    obtain ⟨url, pub, ft, text, fft⟩ := e
    simp only at hfirst
    subst hfirst
    have hsame : ∀ (x : Model) (g : Nat),
        (⟨url, pub, ft, text, some first⟩ : Model).FirstFetchTime = some g →
        (x.FetchTime = ft → ¬ (incoming.FetchTime > ft)) →
        (x.FirstFetchTime = some first → ¬ (incoming.FetchTime < first)) →
        (¬ (incoming.FetchTime > ft) → ¬ (incoming.FetchTime < first) →
          x = ⟨url, pub, ft, text, some first⟩) →
        (some x = some (⟨url, pub, ft, text, some first⟩ : Model) ↔
          ¬ (incoming.FetchTime >
              (⟨url, pub, ft, text, some first⟩ : Model).FetchTime) ∧
            ¬ (incoming.FetchTime < g)) := by
      intro x g hg hx1 hx2 hx3
      simp only [Option.some.injEq] at hg
      subst hg
      constructor
      · intro h
        have hx : x = ⟨url, pub, ft, text, some first⟩ := Option.some.inj h
        exact ⟨hx1 (by rw [hx]), hx2 (by rw [hx])⟩
      · rintro ⟨h3, h4⟩
        exact congrArg some (hx3 h3 h4)
    by_cases h1 : incoming.FetchTime > ft <;> by_cases h2 : incoming.FetchTime < first
    · simp only [mergeFrame, h1, h2, if_true]
      refine ⟨_, rfl, rfl, rfl, rfl, rfl, fun _ _ => ⟨rfl, rfl⟩, (fun h => by cases h), ?_⟩
      intro e g he hg
      cases he
      exact hsame _ g hg (fun h => by simp only at h; omega)
        (fun h => by simp only [Option.some.injEq] at h; omega) (fun h3 _ => absurd h1 h3)
    · simp only [mergeFrame, h1, h2, if_true, if_false]
      refine ⟨_, rfl, rfl, rfl, rfl, rfl, fun _ _ => ⟨rfl, rfl⟩, (fun h => by cases h), ?_⟩
      intro e g he hg
      cases he
      exact hsame _ g hg (fun h => by simp only at h; omega) (fun _ => h2)
        (fun h3 _ => absurd h1 h3)
    · simp only [mergeFrame, h1, h2, if_true, if_false]
      refine ⟨_, rfl, rfl, rfl, rfl, rfl, fun _ _ => ⟨rfl, rfl⟩, (fun h => by cases h), ?_⟩
      intro e g he hg
      cases he
      exact hsame _ g hg (fun _ => h1)
        (fun h => by simp only [Option.some.injEq] at h; omega) (fun _ h4 => absurd h2 h4)
    · simp only [mergeFrame, h1, h2, if_false]
      refine ⟨_, rfl, rfl, rfl, rfl, rfl, fun _ _ => ⟨rfl, rfl⟩, (fun h => by cases h), ?_⟩
      intro e g he hg
      cases he
      exact hsame _ g hg (fun _ => h1) (fun _ => h2) (fun _ _ => rfl)

theorem mergeFrame_effects_witness :
    (∀ e, some (⟨"A", 100, 5, "v5", some 5⟩ : Model) = some e →
      ∃ first, e.FirstFetchTime = some first) ∧
    ∃ f, mergeFrame (some ⟨"A", 100, 5, "v5", some 5⟩) ⟨"A", 90, 3, "v3", none⟩ = Run.ret f ∧
      f.doc = ⟨"A", 90, 3, "v3", none⟩ ∧ f.d = some f.updated ∧
      f.d ≠ some ⟨"A", 100, 5, "v5", some 5⟩ :=
  have hpop : ∀ e, some (⟨"A", 100, 5, "v5", some 5⟩ : Model) = some e →
      ∃ first, e.FirstFetchTime = some first := by
    intro e he
    cases he
    exact ⟨5, rfl⟩
  ⟨hpop,
    (mergeFrame_effects (some ⟨"A", 100, 5, "v5", some 5⟩) ⟨"A", 90, 3, "v3", none⟩ hpop).imp
      (fun _ hf => ⟨hf.1, (hf.2.2.2.2.2.1 _ rfl).1, (hf.2.2.2.2.2.1 _ rfl).2,
        fun h => ((hf.2.2.2.2.2.2.2 _ 5 rfl rfl).1 h).2 (by decide)⟩)⟩

/-- C12: the FirstFetchTime of the incoming update is never read.  Two incoming updates that
agree on Url, PubDate, FetchTime and Text give the same outcome of the merge for every
`existing`, absent or present. -/
theorem merge_ignores_incoming_first (existing : Option Model) (i j : Model)
    (hurl : i.Url = j.Url) (hpub : i.PubDate = j.PubDate)
    (hft : i.FetchTime = j.FetchTime) (htext : i.Text = j.Text) :
    merge existing i = merge existing j := by
  obtain ⟨iUrl, iPub, iFt, iText, iFft⟩ := i
  obtain ⟨jUrl, jPub, jFt, jText, jFft⟩ := j
  simp only at hurl hpub hft htext
  subst hurl hpub hft htext
  cases existing with
  | none => rfl
  | some e =>
    obtain ⟨url, pub, ft, text, fft⟩ := e
    cases fft with
    | none => rw [merge_unpopulated _ _ rfl, merge_unpopulated _ _ rfl]
    | some first => rw [merge_present _ _ first rfl, merge_present _ _ first rfl]

theorem merge_ignores_incoming_first_witness :
    (⟨"A", 90, 3, "v3", none⟩ : Model).Url = (⟨"A", 90, 3, "v3", some 77⟩ : Model).Url ∧
    merge (some ⟨"A", 100, 5, "v5", some 5⟩) ⟨"A", 90, 3, "v3", none⟩ =
      merge (some ⟨"A", 100, 5, "v5", some 5⟩) ⟨"A", 90, 3, "v3", some 77⟩ :=
  ⟨rfl,
    merge_ignores_incoming_first (some ⟨"A", 100, 5, "v5", some 5⟩) ⟨"A", 90, 3, "v3", none⟩
      ⟨"A", 90, 3, "v3", some 77⟩ rfl rfl rfl rfl⟩

/-- C13: the merge is total over well-formed input.  For `existing` absent or a record with
FirstFetchTime populated the merge returns a record (the dereference of
existing.FirstFetchTime does not panic), and that record has FirstFetchTime populated. -/
theorem merge_total (existing : Option Model) (incoming : Model)
    (hpop : ∀ e, existing = some e → ∃ first, e.FirstFetchTime = some first) :
    ∃ r first, merge existing incoming = Run.ret r ∧ r.FirstFetchTime = some first := by
  cases existing with
  | none => exact ⟨_, _, merge_absent incoming, rfl⟩
  | some e =>
    obtain ⟨first, hfirst⟩ := hpop e rfl
    exact ⟨_, _, merge_present e incoming first hfirst, rfl⟩

theorem merge_total_witness :
    (∀ e, some (⟨"A", 100, 5, "v5", some 5⟩ : Model) = some e →
      ∃ first, e.FirstFetchTime = some first) ∧
    ∃ r first, merge (some ⟨"A", 100, 5, "v5", some 5⟩) ⟨"A", 90, 3, "v3", none⟩ = Run.ret r ∧
      r.FirstFetchTime = some first :=
  have hpop : ∀ e, some (⟨"A", 100, 5, "v5", some 5⟩ : Model) = some e →
      ∃ first, e.FirstFetchTime = some first := by
    intro e he
    cases he
    exact ⟨5, rfl⟩
  ⟨hpop, merge_total (some ⟨"A", 100, 5, "v5", some 5⟩) ⟨"A", 90, 3, "v3", none⟩ hpop⟩

/-- C19: well-formedness of resolved records.  The record produced from an absent `existing`
has FirstFetchTime populated and not greater than FetchTime, and every merge step preserves
this: from an `existing` that satisfies it the merge returns a record that satisfies it. -/
theorem merge_preserves_wellformed :
    (∀ incoming : Model, ∃ r first,
      merge none incoming = Run.ret r ∧ r.FirstFetchTime = some first ∧ first ≤ r.FetchTime) ∧
    (∀ (existing incoming : Model) (first : Nat),
      existing.FirstFetchTime = some first → first ≤ existing.FetchTime →
      ∃ r g, merge (some existing) incoming = Run.ret r ∧ r.FirstFetchTime = some g ∧
        g ≤ r.FetchTime) := by
  refine ⟨?_, ?_⟩
  · intro incoming
    exact ⟨_, _, merge_absent incoming, rfl, le_refl _⟩
  · intro existing incoming first hfirst hle
    refine ⟨_, _, merge_present existing incoming first hfirst, rfl, ?_⟩
    by_cases h1 : incoming.FetchTime > existing.FetchTime <;>
      by_cases h2 : incoming.FetchTime < first <;>
      simp only [h1, h2, if_true, if_false] <;> omega

/-- C16 as stated fails: no record obtained by merging one or more updates from an absent
record admits an incoming update for which both comparisons of the merge hold, and no merge
step on such a record changes both its FetchTime and its FirstFetchTime. -/
theorem both_ends_counterexample :
    (¬ ∃ (us : List Model) (existing incoming : Model) (first : Nat),
      us ≠ [] ∧ process us = Run.ret (some existing) ∧
      existing.FirstFetchTime = some first ∧
      incoming.FetchTime > existing.FetchTime ∧ incoming.FetchTime < first) ∧
    (¬ ∃ (us : List Model) (existing incoming r : Model),
      us ≠ [] ∧ process us = Run.ret (some existing) ∧
      merge (some existing) incoming = Run.ret r ∧
      r.FetchTime ≠ existing.FetchTime ∧ r.FirstFetchTime ≠ existing.FirstFetchTime) := by
  refine ⟨?_, ?_⟩
  · rintro ⟨us, existing, incoming, first, hne, hproc, hfirst, h1, h2⟩
    obtain ⟨g, hg, hle⟩ := process_wellformed us existing hne hproc
    rw [hfirst] at hg
    cases hg
    omega
  · rintro ⟨us, existing, incoming, r, hne, hproc, hmerge, hft, hfft⟩
    obtain ⟨g, hg, hle⟩ := process_wellformed us existing hne hproc
    rw [merge_present existing incoming g hg] at hmerge
    cases hmerge
    by_cases h1 : incoming.FetchTime > existing.FetchTime
    · have h2 : ¬ (incoming.FetchTime < g) := by omega
      simp only [h2, if_false] at hfft
      exact hfft hg.symm
    · simp only [h1, if_false] at hft
      exact hft rfl

/-- C16 (amended): there are a record with FirstFetchTime populated and an incoming update
such that one merge step replaces Text, FetchTime, PubDate and FirstFetchTime by the incoming
values; in every such pair the record has FirstFetchTime greater than its FetchTime. -/
theorem merge_moves_both_ends :
    (∃ (existing incoming r : Model) (first : Nat),
      existing.FirstFetchTime = some first ∧
      incoming.FetchTime > existing.FetchTime ∧ incoming.FetchTime < first ∧
      merge (some existing) incoming = Run.ret r ∧
      r.Text = incoming.Text ∧ r.FetchTime = incoming.FetchTime ∧
      r.PubDate = incoming.PubDate ∧ r.FirstFetchTime = some incoming.FetchTime ∧
      r.Text ≠ existing.Text ∧ r.FetchTime ≠ existing.FetchTime ∧
      r.PubDate ≠ existing.PubDate ∧ r.FirstFetchTime ≠ existing.FirstFetchTime) ∧
    (∀ (existing incoming : Model) (first : Nat),
      existing.FirstFetchTime = some first →
      incoming.FetchTime > existing.FetchTime → incoming.FetchTime < first →
      existing.FetchTime < first ∧
      merge (some existing) incoming =
        Run.ret ⟨existing.Url, incoming.PubDate, incoming.FetchTime, incoming.Text,
          some incoming.FetchTime⟩) := by
  refine ⟨⟨⟨"A", 100, 5, "v5", some 9⟩, ⟨"A", 50, 7, "v7", none⟩, ⟨"A", 50, 7, "v7", some 7⟩, 9,
    by decide⟩, ?_⟩
  intro existing incoming first hfirst h1 h2
  refine ⟨by omega, ?_⟩
  rw [merge_present existing incoming first hfirst]
  simp only [h1, h2, if_true]

/-! ## Failures of the store and of the transaction -/

/-- C14: failure yields no output.  Service.UpsertDoc returns a record exactly when Repo.Tx
returned no error; when GetByURL returns an error the store upsert is not called; when
GetByURL or the store upsert returns an error inside a begun transaction, or Repo.Tx returns
an error, UpsertDoc returns no record and the cause wrapped with the operation names, and
Handler.Process returns no record and that error wrapped once more. -/
theorem upsertDoc_failure_no_output (env : Env) (doc : Model) :
    ((∃ m e, (UpsertDoc env doc).2 = Run.ret (some m, e)) ↔
      (Repository.Repo.Tx env.begin (UpsertDoc.fn env doc) env.commit).result = Run.ret none) ∧
    (∀ e, (env.getByURL doc.Url).2 = some e →
      ∀ m, Event.Store (StoreCall.UpsertDoc m) ∉ (UpsertDoc env doc).1) ∧
    (∀ h e, env.begin = ⟨some h, none⟩ → (env.getByURL doc.Url).2 = some e →
      (UpsertDoc env doc).2 =
        Run.ret (none, some (Error.wrap "s.repo.Tx" (Error.wrap "repo.GetByURL" e))) ∧
      (Kafka.Handler.Process env doc).2 =
        Run.ret (none, some (Error.wrap "upsert doc"
          (Error.wrap "s.repo.Tx" (Error.wrap "repo.GetByURL" e))))) ∧
    (∀ h d u e, env.begin = ⟨some h, none⟩ → env.getByURL doc.Url = (d, none) →
      merge d doc = Run.ret u → env.upsertDoc u = some e →
      (UpsertDoc env doc).2 =
        Run.ret (none, some (Error.wrap "s.repo.Tx" (Error.wrap "repo.UpsertDoc" e))) ∧
      (Kafka.Handler.Process env doc).2 =
        Run.ret (none, some (Error.wrap "upsert doc"
          (Error.wrap "s.repo.Tx" (Error.wrap "repo.UpsertDoc" e))))) ∧
    (∀ e, (Repository.Repo.Tx env.begin (UpsertDoc.fn env doc) env.commit).result =
        Run.ret (some e) →
      (UpsertDoc env doc).2 = Run.ret (none, some (Error.wrap "s.repo.Tx" e)) ∧
      (Kafka.Handler.Process env doc).2 =
        Run.ret (none, some (Error.wrap "upsert doc" (Error.wrap "s.repo.Tx" e)))) := by
  obtain ⟨⟨txDB, berr⟩, getByURL, upsertDoc, commit⟩ := env
  refine ⟨?_, ?_, ?_, ?_, ?_⟩
  · rcases hget : getByURL doc.Url with ⟨d, ge⟩
    cases berr <;> cases txDB <;> cases ge <;> cases commit <;>
      cases hm : merge d doc <;>
      simp [UpsertDoc, UpsertDoc.fn, Repository.Repo.Tx, Repository.deferredRollback, hget, hm]
    all_goals
      rename_i u
      cases hup : upsertDoc u <;> simp
  · intro e he m
    rcases hget : getByURL doc.Url with ⟨d, ge⟩
    simp only [hget] at he
    subst he
    cases berr <;> cases txDB <;>
      simp [UpsertDoc, UpsertDoc.fn, Repository.Repo.Tx, Repository.deferredRollback, hget]
  · intro h e hb he
    simp only [BeginResult.mk.injEq] at hb
    obtain ⟨hb1, hb2⟩ := hb
    subst hb1 hb2
    rcases hget : getByURL doc.Url with ⟨d, ge⟩
    simp only [hget] at he
    subst he
    simp [Kafka.Handler.Process, UpsertDoc, UpsertDoc.fn, Repository.Repo.Tx,
      Repository.deferredRollback, hget]
  · intro h d u e hb hget hm hup
    simp only [BeginResult.mk.injEq] at hb
    obtain ⟨hb1, hb2⟩ := hb
    subst hb1 hb2
    simp only at hget hup
    simp [Kafka.Handler.Process, UpsertDoc, UpsertDoc.fn, Repository.Repo.Tx,
      Repository.deferredRollback, hget, hm, hup]
  · intro e he
    simp only at he
    simp [Kafka.Handler.Process, UpsertDoc, he]

/-- C15 on the code: GetByURL returns a present record whose FirstFetchTime is nil.  The
closure panics on `*d.FirstFetchTime`; the store upsert is not called, Rollback runs, and
neither Service.UpsertDoc nor Handler.Process returns: no error value is produced. -/
theorem upsertDoc_unpopulated_panics :
    UpsertDoc ⟨⟨some ⟨1⟩, none⟩, fun _ => (some ⟨"A", 100, 5, "v5", none⟩, none),
        fun _ => none, none⟩ ⟨"A", 90, 3, "v3", none⟩ =
      ([Event.BeginTx, Event.Fn, Event.Store (StoreCall.GetByURL "A"), Event.Rollback],
        Run.panic) ∧
    Kafka.Handler.Process ⟨⟨some ⟨1⟩, none⟩, fun _ => (some ⟨"A", 100, 5, "v5", none⟩, none),
        fun _ => none, none⟩ ⟨"A", 90, 3, "v3", none⟩ =
      ([Event.BeginTx, Event.Fn, Event.Store (StoreCall.GetByURL "A"), Event.Rollback],
        Run.panic) := by
  decide

end Service

namespace Repository

/-- C18 on the code: BeginTx returns an error and no handle.  The deferred function was
registered before `err` is inspected, so on `return err` it calls Rollback on the nil handle
and Tx panics instead of returning the error; `fn` is not invoked and Commit is not
called. -/
theorem tx_begin_failure_panics {β : Type} (e : Error) (fn : Option TxHandle → FnRun β)
    (commit : Option Error) :
    (Repo.Tx ⟨none, some e⟩ fn commit).result = Run.panic ∧
    (Repo.Tx ⟨none, some e⟩ fn commit).result ≠ Run.ret (some e) ∧
    (Repo.Tx ⟨none, some e⟩ fn commit).trace = [Event.BeginTx] ∧
    (Repo.Tx ⟨none, some e⟩ fn commit).captured = none := by
  refine ⟨rfl, ?_, rfl, rfl⟩
  intro h
  cases h

end Repository

end Updater
